import Mathlib

/-!
Shallow embedding of Apache Tika's image-captioning beam-search decoder
(`caption_generator.py`: classes `Caption`, `TopN`, `CaptionGenerator`) and of
the caller-facing output assembly in `im2txtapi.py` (`caption_image`).

Modelling conventions:
* Python floats (probabilities, log-probabilities, scores) are modelled as `ℚ`.
* The external math library functions `math.log`, `**` (float power) and
  `math.exp` are opaque collaborators of the code; they are passed to the
  embedded functions as function parameters `log : ℚ → ℚ`,
  `powf : ℕ → ℚ → ℚ` and `exp : ℚ → ℚ`.
* The `heapq` min-heap backing `TopN._data` is modelled as a list kept sorted
  ascending by `score`, so the minimum sits at the head exactly as `heap[0]`
  does.  `heapq.heappush` inserts preserving the order; `heapq.heappushpop`
  replaces the head exactly when `heap[0] < item`, i.e. when the head's score
  is strictly below the new item's (`Caption.__lt__` compares by `score`
  alone).  This preserves the heap's contents as a multiset of captions and
  its minimum element, which is all `TopN` ever observes of the heap order.
* `TopN._data` is `None` after `extract()`; the field is modelled as
  `Option (List (Caption σ))`, and the methods that `assert _data is not None`
  return `none` (the `InvalidStateError` of the spec) in that state.
* The model collaborator's batched
  `inference_step(sess, input_feed, state_feed) -> (softmax, new_states)` is a
  field of the generator; the Python loop reads `softmax[i]` / `new_states[i]`
  for the i-th extracted caption, which we express by zipping the extracted
  list with the two returned lists (the collaborator contract returns one
  distribution and one state per input).
* The model state is an opaque type parameter `σ`; `feed_image`'s result
  `initial_state[0]` enters `beam_search` as the parameter `initial_state`.
-/

namespace TikaCaption

/-- A complete or partial caption: `Caption.__init__` stores the word-id list
`sentence`, the opaque model `state`, the cumulative `logprob` and the ranking
`score` (`__lt__`/`__eq__` compare by `score` alone). -/
structure Caption (σ : Type) where
  sentence : List ℕ
  state : σ
  logprob : ℚ
  score : ℚ
deriving DecidableEq, Repr

/-- Insert a caption into a list that is sorted ascending by score, keeping it
sorted: the multiset effect of `heapq.heappush`. -/
def insertAsc {σ : Type} (x : Caption σ) : List (Caption σ) → List (Caption σ)
  | [] => [x]
  | y :: ys => if x.score ≤ y.score then x :: y :: ys else y :: insertAsc x ys

/-- The multiset effect of `heapq.heappushpop heap x`: when the heap is
nonempty and its minimum (`heap[0]`, here the head) has score strictly below
`x`'s, the minimum is popped and `x` inserted; otherwise `x` itself is popped
right back and the heap is unchanged. -/
def heapPushPop {σ : Type} (d : List (Caption σ)) (x : Caption σ) :
    List (Caption σ) :=
  match d with
  | [] => []
  | m :: rest => if m.score < x.score then insertAsc x rest else m :: rest

/-- `TopN.push` on live data `d` with capacity `n`:
`heappush` while below capacity, `heappushpop` at capacity. -/
def heapPush {σ : Type} (n : ℕ) (d : List (Caption σ)) (x : Caption σ) :
    List (Caption σ) :=
  if d.length < n then insertAsc x d else heapPushPop d x

/-- Insert a caption into a list sorted descending by score (stable: the new
element lands after existing elements of equal score). -/
def insertDesc {σ : Type} (x : Caption σ) : List (Caption σ) → List (Caption σ)
  | [] => [x]
  | y :: ys => if y.score < x.score then x :: y :: ys else y :: insertDesc x ys

/-- `data.sort(reverse=True)` of `TopN.extract`: sort descending by score
(`Caption.__lt__` compares scores). -/
def sortDesc {σ : Type} (l : List (Caption σ)) : List (Caption σ) :=
  l.foldl (fun acc x => insertDesc x acc) []

/-- `TopN`: bounded best-N set over a min-heap; `_data` is `none` after
`extract`. -/
structure TopN (σ : Type) where
  n : ℕ
  data : Option (List (Caption σ))
deriving DecidableEq, Repr

/-- `TopN.__init__(n)`. -/
def TopN.new (σ : Type) (n : ℕ) : TopN σ := ⟨n, some []⟩

/-- `TopN.size`; `none` models the failed `assert self._data is not None`. -/
def TopN.size {σ : Type} (t : TopN σ) : Option ℕ :=
  t.data.map List.length

/-- `TopN.push`; `none` models the failed `assert self._data is not None`
(the spec's `InvalidStateError`). -/
def TopN.push {σ : Type} (t : TopN σ) (x : Caption σ) : Option (TopN σ) :=
  match t.data with
  | none => none
  | some d => some ⟨t.n, some (heapPush t.n d x)⟩

/-- `TopN.extract(sort)`: returns the held items (sorted descending when
`sort`) and leaves `_data = None`. -/
def TopN.extract {σ : Type} (t : TopN σ) (sort : Bool) :
    Option (List (Caption σ) × TopN σ) :=
  match t.data with
  | none => none
  | some d => some (if sort then sortDesc d else d, ⟨t.n, none⟩)

/-- `TopN.reset`. -/
def TopN.reset {σ : Type} (t : TopN σ) : TopN σ := ⟨t.n, some []⟩

/-- Repeated `TopN.push` of a list of items (left to right), propagating the
possible `InvalidStateError`. -/
def TopN.pushSeq {σ : Type} (t : TopN σ) : List (Caption σ) → Option (TopN σ)
  | [] => some t
  | x :: xs => (t.push x).bind (fun t2 => t2.pushSeq xs)

/-- The live data after pushing `xs` into a fresh `TopN n`. -/
def pushAll {σ : Type} (n : ℕ) (xs : List (Caption σ)) : List (Caption σ) :=
  xs.foldl (heapPush n) []

/-- The probability floor of `beam_search`: candidates with `p < 1e-12` are
skipped to avoid `log(0)`. -/
def epsilon : ℚ := 1 / 10 ^ 12

/-- Insert a `(word, probability)` pair into a list sorted descending by
probability, stably: the effect of the Python stable
`words_and_probs.sort(key=lambda x: -x[1])` (ties stay in index order). -/
def insertDescProb (x : ℕ × ℚ) : List (ℕ × ℚ) → List (ℕ × ℚ)
  | [] => [x]
  | y :: ys => if y.2 < x.2 then x :: y :: ys else y :: insertDescProb x ys

/-- Stable sort of `(word, probability)` pairs, descending by probability. -/
def sortDescProb (l : List (ℕ × ℚ)) : List (ℕ × ℚ) :=
  l.foldl (fun acc x => insertDescProb x acc) []

/-- `CaptionGenerator.__init__` plus the two collaborator fields it reads:
`vocab.start_id` / `vocab.end_id` and the model's batched `inference_step`
(`__init__` stores the arguments unchecked; there is no validation code). -/
structure CaptionGenerator (σ : Type) where
  start_id : ℕ
  end_id : ℕ
  beam_size : ℕ
  max_caption_length : ℕ
  length_normalization_factor : ℚ
  inference_step : List ℕ → List σ → List (List ℚ) × List σ

/-- The body of `for w, p in words_and_probs`: skip `p < 1e-12`; otherwise
build the child caption with `sentence = parent + [w]`,
`logprob = parent.logprob + log p`, `score = logprob`, and push it into the
completed accumulator (`acc.2`, length-normalizing the score when
`w == end_id` and the factor is positive) or the frontier accumulator
(`acc.1`). -/
def expandOne {σ : Type} (g : CaptionGenerator σ) (log : ℚ → ℚ)
    (powf : ℕ → ℚ → ℚ) (pc : Caption σ) (s : σ)
    (acc : List (Caption σ) × List (Caption σ)) (wp : ℕ × ℚ) :
    List (Caption σ) × List (Caption σ) :=
  if wp.2 < epsilon then acc
  else
    let sentence := pc.sentence ++ [wp.1]
    let logprob := pc.logprob + log wp.2
    let score := logprob
    if wp.1 = g.end_id then
      let score2 := if 0 < g.length_normalization_factor then
        logprob / powf sentence.length g.length_normalization_factor
      else score
      (acc.1, heapPush g.beam_size acc.2 ⟨sentence, s, logprob, score2⟩)
    else
      (heapPush g.beam_size acc.1 ⟨sentence, s, logprob, score⟩, acc.2)

/-- One caption's expansion inside the batch loop: enumerate its word
distribution, keep the `beam_size` most probable words (stable descending
sort, then slice), and fold the candidate loop over them. -/
def expandCaption {σ : Type} (g : CaptionGenerator σ) (log : ℚ → ℚ)
    (powf : ℕ → ℚ → ℚ) (acc : List (Caption σ) × List (Caption σ))
    (pc : Caption σ) (d : List ℚ) (s : σ) :
    List (Caption σ) × List (Caption σ) :=
  ((sortDescProb d.enum).take g.beam_size).foldl (expandOne g log powf pc s) acc

/-- The inner `for i, partial_caption in enumerate(partial_captions_list)`
loop of one beam-search iteration: fold every caption of the zipped batch
(caption, its softmax row, its new state) into the fresh frontier (started
empty by `partial_captions.reset()`) and the carried completed set. -/
def expandBatch {σ : Type} (g : CaptionGenerator σ) (log : ℚ → ℚ)
    (powf : ℕ → ℚ → ℚ) (batch : List (Caption σ × (List ℚ × σ)))
    (comp : List (Caption σ)) : List (Caption σ) × List (Caption σ) :=
  batch.foldl (fun acc b => expandCaption g log powf acc b.1 b.2.1 b.2.2)
    ([], comp)

/-- The `for _ in range(max_caption_length - 1)` loop of `beam_search`, with
the remaining iteration count as fuel.  Each iteration extracts the frontier
(`partial_captions.extract(); partial_captions.reset()`), batches one
`inference_step` call over last tokens and states, expands every caption into
a fresh frontier and the carried completed set, and `break`s when the new
frontier is empty. -/
def beamLoop {σ : Type} (g : CaptionGenerator σ) (log : ℚ → ℚ)
    (powf : ℕ → ℚ → ℚ) :
    ℕ → List (Caption σ) → List (Caption σ) →
    List (Caption σ) × List (Caption σ)
  | 0, fr, comp => (fr, comp)
  | fuel + 1, fr, comp =>
    let input_feed := fr.map (fun c => c.sentence.getLastD 0)
    let state_feed := fr.map (fun c => c.state)
    let sm := g.inference_step input_feed state_feed
    let res := expandBatch g log powf (fr.zip (sm.1.zip sm.2)) comp
    if res.1.length = 0 then res
    else beamLoop g log powf fuel res.1 res.2

/-- `CaptionGenerator.beam_search`: seed the frontier with
`Caption([start_id], initial_state, 0.0, 0.0)`, run the loop, fall back to the
frontier when no caption completed, and extract sorted descending by score. -/
def beam_search {σ : Type} (g : CaptionGenerator σ) (log : ℚ → ℚ)
    (powf : ℕ → ℚ → ℚ) (initial_state : σ) : List (Caption σ) :=
  let initial_beam : Caption σ := ⟨[g.start_id], initial_state, 0, 0⟩
  let fr0 := heapPush g.beam_size [] initial_beam
  let res := beamLoop g log powf (g.max_caption_length - 1) fr0 []
  let complete := if res.2.length = 0 then res.1 else res.2
  sortDesc complete

/-- The output assembly of `im2txtapi.caption_image`: each returned caption is
delivered as `caption.sentence[1:-1]` (first and last element dropped) paired
with `math.exp(caption.logprob)` as the confidence (the word-id → word lookup
is vocabulary glue outside the decoder, kept as ids here). -/
def array_captions {σ : Type} (exp : ℚ → ℚ) (caps : List (Caption σ)) :
    List (List ℕ × ℚ) :=
  caps.map (fun c => ((c.sentence.drop 1).dropLast, exp c.logprob))

/-- `im2txtapi.caption_image`, restricted to the decoder-facing part: run
`beam_search` and assemble the delivered `(stripped sentence, confidence)`
pairs. -/
def caption_image {σ : Type} (g : CaptionGenerator σ) (log : ℚ → ℚ)
    (powf : ℕ → ℚ → ℚ) (exp : ℚ → ℚ) (initial_state : σ) :
    List (List ℕ × ℚ) :=
  array_captions exp (beam_search g log powf initial_state)

/-- A caption counts as completed when its last token is the end token (the
default makes the empty sentence, which never occurs, count as partial). -/
def IsCompleted {σ : Type} (g : CaptionGenerator σ) (c : Caption σ) : Prop :=
  c.sentence.getLastD (g.end_id + 1) = g.end_id

instance {σ : Type} (g : CaptionGenerator σ) (c : Caption σ) :
    Decidable (IsCompleted g c) := by
  unfold IsCompleted; infer_instance

/-- The loop state `(partial_captions, complete_captions)` of a `beam_search`
call right after the `for` loop finishes, before the fallback choice. -/
def beamLoopResult {σ : Type} (g : CaptionGenerator σ) (log : ℚ → ℚ)
    (powf : ℕ → ℚ → ℚ) (st : σ) : List (Caption σ) × List (Caption σ) :=
  beamLoop g log powf (g.max_caption_length - 1)
    (heapPush g.beam_size [] ⟨[g.start_id], st, 0, 0⟩) []

/-- A tiny concrete generator (beam 2, three steps, vocabulary of three
tokens) used to instantiate universally quantified theorems. -/
def gSmall : CaptionGenerator Unit :=
  ⟨0, 1, 2, 3, 0, fun _ s => ([[0, 1, 0]], s)⟩

/-- A concrete generator with `max_caption_length = 0` (`maxSteps < 1`). -/
def gNoSteps : CaptionGenerator Unit :=
  ⟨7, 1, 3, 0, 0, fun _ s => ([], s)⟩

/-- A concrete generator (beam 1, two steps) whose model always puts all
probability on token 2, so no caption ever completes and `beam_search` takes
the fallback path. -/
def gFallback : CaptionGenerator Unit :=
  ⟨0, 1, 1, 2, 0, fun _ s => ([[0, 0, 1]], s)⟩

/-- Concrete captions for instantiating theorems. -/
def capA : Caption Unit := ⟨[1], (), 0, 5⟩

/-- A caption with the same score as `capA` but different content. -/
def capB : Caption Unit := ⟨[2], (), 0, 5⟩

/-- A caption with a lower score. -/
def capC : Caption Unit := ⟨[3], (), 0, 2⟩

/-- Sorted ascending by score: the invariant of the modelled heap data. -/
abbrev AscBy {σ : Type} (l : List (Caption σ)) : Prop :=
  l.Pairwise (fun a b => a.score ≤ b.score)

/-- Sorted descending by score: the shape of `extract(sort=True)` output. -/
abbrev DescBy {σ : Type} (l : List (Caption σ)) : Prop :=
  l.Pairwise (fun a b => b.score ≤ a.score)

section SortLemmas

variable {σ : Type}

theorem mem_insertAsc {x y : Caption σ} {l : List (Caption σ)} :
    y ∈ insertAsc x l ↔ y = x ∨ y ∈ l := by
  induction l with
  | nil => simp [insertAsc]
  | cons z zs ih =>
    simp only [insertAsc]
    split <;> simp [ih, List.mem_cons] <;> tauto

theorem insertAsc_perm (x : Caption σ) (l : List (Caption σ)) :
    (insertAsc x l).Perm (x :: l) := by
  induction l with
  | nil => simp [insertAsc]
  | cons z zs ih =>
    simp only [insertAsc]
    split
    · exact List.Perm.refl _
    · exact (List.Perm.cons z ih).trans (List.Perm.swap x z zs)

theorem length_insertAsc (x : Caption σ) (l : List (Caption σ)) :
    (insertAsc x l).length = l.length + 1 := by
  simpa using (insertAsc_perm x l).length_eq

theorem ascBy_insertAsc {x : Caption σ} {l : List (Caption σ)}
    (h : AscBy l) : AscBy (insertAsc x l) := by
  induction l with
  | nil => simp [insertAsc]
  | cons z zs ih =>
    have h1 : ∀ b ∈ zs, z.score ≤ b.score := (List.pairwise_cons.mp h).1
    have h2 : AscBy zs := (List.pairwise_cons.mp h).2
    simp only [insertAsc]
    split
    · rename_i hle
      refine List.Pairwise.cons (fun b hb => ?_) h
      rcases List.mem_cons.mp hb with rfl | hb
      · exact hle
      · exact le_trans hle (h1 b hb)
    · rename_i hgt
      refine List.Pairwise.cons (fun b hb => ?_) (ih h2)
      rcases mem_insertAsc.mp hb with rfl | hb
      · exact le_of_lt (lt_of_not_le hgt)
      · exact h1 b hb

theorem mem_insertDesc {x y : Caption σ} {l : List (Caption σ)} :
    y ∈ insertDesc x l ↔ y = x ∨ y ∈ l := by
  induction l with
  | nil => simp [insertDesc]
  | cons z zs ih =>
    simp only [insertDesc]
    split <;> simp [ih, List.mem_cons] <;> tauto

theorem insertDesc_perm (x : Caption σ) (l : List (Caption σ)) :
    (insertDesc x l).Perm (x :: l) := by
  induction l with
  | nil => simp [insertDesc]
  | cons z zs ih =>
    simp only [insertDesc]
    split
    · exact List.Perm.refl _
    · exact (List.Perm.cons z ih).trans (List.Perm.swap x z zs)

theorem descBy_insertDesc {x : Caption σ} {l : List (Caption σ)}
    (h : DescBy l) : DescBy (insertDesc x l) := by
  induction l with
  | nil => simp [insertDesc]
  | cons z zs ih =>
    have h1 : ∀ b ∈ zs, b.score ≤ z.score := (List.pairwise_cons.mp h).1
    have h2 : DescBy zs := (List.pairwise_cons.mp h).2
    simp only [insertDesc]
    split
    · rename_i hlt
      refine List.Pairwise.cons (fun b hb => ?_) h
      rcases List.mem_cons.mp hb with rfl | hb
      · exact le_of_lt hlt
      · exact le_trans (h1 b hb) (le_of_lt hlt)
    · rename_i hge
      refine List.Pairwise.cons (fun b hb => ?_) (ih h2)
      rcases mem_insertDesc.mp hb with rfl | hb
      · exact not_lt.mp hge
      · exact h1 b hb

theorem sortDesc_perm (l : List (Caption σ)) : (sortDesc l).Perm l := by
  suffices h : ∀ (l acc : List (Caption σ)),
      (l.foldl (fun acc x => insertDesc x acc) acc).Perm (acc ++ l) by
    simpa using h l []
  intro l
  induction l with
  | nil => simp
  | cons x xs ih =>
    intro acc
    refine ((ih (insertDesc x acc)).trans ?_)
    refine (((insertDesc_perm x acc).append_right xs).trans ?_)
    exact (List.perm_middle).symm

theorem descBy_sortDesc (l : List (Caption σ)) : DescBy (sortDesc l) := by
  suffices h : ∀ (l acc : List (Caption σ)), DescBy acc →
      DescBy (l.foldl (fun acc x => insertDesc x acc) acc) by
    exact h l [] (by simp)
  intro l
  induction l with
  | nil => exact fun acc h => h
  | cons x xs ih => exact fun acc h => ih _ (descBy_insertDesc h)

end SortLemmas

section HeapLemmas

variable {σ : Type}

theorem mem_heapPushPop {d : List (Caption σ)} {x y : Caption σ}
    (h : y ∈ heapPushPop d x) : y = x ∨ y ∈ d := by
  cases d with
  | nil => simp [heapPushPop] at h
  | cons m rest =>
    simp only [heapPushPop] at h
    split at h
    · rcases mem_insertAsc.mp h with rfl | hy
      · exact Or.inl rfl
      · exact Or.inr (List.mem_cons_of_mem m hy)
    · exact Or.inr h

theorem mem_heapPush {n : ℕ} {d : List (Caption σ)} {x y : Caption σ}
    (h : y ∈ heapPush n d x) : y = x ∨ y ∈ d := by
  unfold heapPush at h
  split at h
  · exact mem_insertAsc.mp h
  · exact mem_heapPushPop h

theorem ascBy_heapPush {n : ℕ} {d : List (Caption σ)} {x : Caption σ}
    (h : AscBy d) : AscBy (heapPush n d x) := by
  unfold heapPush
  split
  · exact ascBy_insertAsc h
  · cases d with
    | nil => simp [heapPushPop]
    | cons m rest =>
      simp only [heapPushPop]
      split
      · exact ascBy_insertAsc (List.pairwise_cons.mp h).2
      · exact h

theorem length_heapPush {n : ℕ} {d : List (Caption σ)} (x : Caption σ)
    (hle : d.length ≤ n) :
    (heapPush n d x).length = min (d.length + 1) n := by
  unfold heapPush
  split
  · rename_i hlt
    rw [length_insertAsc]
    omega
  · rename_i hge
    have heq : d.length = n := le_antisymm hle (not_lt.mp hge)
    cases d with
    | nil =>
      simp only [heapPushPop]
      simp at heq
      simp [← heq]
    | cons m rest =>
      simp only [heapPushPop]
      split
      · rw [length_insertAsc]
        simp at heq ⊢
        omega
      · omega

theorem length_heapPush_le {n : ℕ} {d : List (Caption σ)} (x : Caption σ)
    (hle : d.length ≤ n) : (heapPush n d x).length ≤ n := by
  rw [length_heapPush x hle]; omega

theorem cons_append_singleton_perm (x m : Caption σ) (L : List (Caption σ)) :
    (x :: (L ++ [m])).Perm (m :: (L ++ [x])) := by
  refine (List.Perm.cons x (List.perm_append_singleton m L)).trans ?_
  refine (List.Perm.swap m x L).trans ?_
  exact List.Perm.cons m (List.perm_append_singleton x L).symm

/-- One `push` step preserves the "kept elements dominate all discarded
elements" invariant of a `TopN` at capacity `n`: `d` is the live (sorted)
data, `rest` the multiset of discarded items. -/
theorem heapPush_top_invariant {n : ℕ} {d rest : List (Caption σ)}
    (x : Caption σ) (ha : AscBy d) (hlen : d.length ≤ n)
    (hfull : rest ≠ [] → d.length = n)
    (hdom : ∀ a ∈ d, ∀ b ∈ rest, b.score ≤ a.score) :
    ∃ rest2 : List (Caption σ),
      AscBy (heapPush n d x) ∧
      (heapPush n d x).length = min (d.length + 1) n ∧
      (rest2 ≠ [] → (heapPush n d x).length = n) ∧
      (∀ a ∈ heapPush n d x, ∀ b ∈ rest2, b.score ≤ a.score) ∧
      (heapPush n d x ++ rest2).Perm (d ++ rest ++ [x]) := by
  have hL := length_heapPush (d := d) x hlen
  by_cases hlt : d.length < n
  · have hrest : rest = [] := by
      by_contra hne
      exact absurd (hfull hne) (by omega)
    subst hrest
    refine ⟨[], ?_, hL, ?_, ?_, ?_⟩
    · exact ascBy_heapPush ha
    · intro hne; exact absurd rfl hne
    · intro a _ b hb; simp at hb
    · have h1 : heapPush n d x = insertAsc x d := by
        unfold heapPush; rw [if_pos hlt]
      rw [h1]
      simp only [List.append_nil]
      exact (insertAsc_perm x d).trans (List.perm_append_singleton x d).symm
  · have heq : d.length = n := le_antisymm hlen (not_lt.mp hlt)
    have h1 : heapPush n d x = heapPushPop d x := by
      unfold heapPush; rw [if_neg hlt]
    cases d with
    | nil =>
      refine ⟨rest ++ [x], ?_, ?_, ?_, ?_, ?_⟩ <;>
        simp_all [heapPushPop, List.append_assoc]
    | cons m rest0 =>
      have hmin : ∀ b ∈ m :: rest0, m.score ≤ b.score := by
        intro b hb
        rcases List.mem_cons.mp hb with rfl | hb
        · exact le_refl _
        · exact (List.pairwise_cons.mp ha).1 b hb
      rw [h1]
      simp only [heapPushPop]
      split
      · rename_i hmx
        refine ⟨rest ++ [m], ?_, ?_, ?_, ?_, ?_⟩
        · exact ascBy_insertAsc (List.pairwise_cons.mp ha).2
        · rw [length_insertAsc]
          simp only [List.length_cons] at heq ⊢
          omega
        · intro _
          rw [length_insertAsc]
          simpa using heq
        · intro a hain b hb
          rcases List.mem_append.mp hb with hb | hb
          · rcases mem_insertAsc.mp hain with rfl | hain
            · exact le_of_lt (lt_of_le_of_lt (hdom m (List.mem_cons_self m rest0) b hb) hmx)
            · exact hdom a (List.mem_cons_of_mem m hain) b hb
          · have hbm : b = m := by simpa using hb
            rw [hbm]
            rcases mem_insertAsc.mp hain with rfl | hain
            · exact le_of_lt hmx
            · exact hmin a (List.mem_cons_of_mem m hain)
        · have e1 : (insertAsc x rest0 ++ (rest ++ [m])).Perm
              ((x :: rest0) ++ (rest ++ [m])) :=
            (insertAsc_perm x rest0).append_right _
          refine e1.trans ?_
          have e2 : (x :: rest0) ++ (rest ++ [m]) =
              x :: ((rest0 ++ rest) ++ [m]) := by
            simp [List.append_assoc]
          have e4 : m :: ((rest0 ++ rest) ++ [x]) =
              ((m :: rest0) ++ rest) ++ [x] := by
            simp [List.append_assoc]
          rw [e2, ← e4]
          exact cons_append_singleton_perm x m (rest0 ++ rest)
      · rename_i hmx
        refine ⟨rest ++ [x], ha, ?_, fun _ => heq, ?_, ?_⟩
        · simp only [List.length_cons] at heq ⊢
          omega
        · intro a hain b hb
          rcases List.mem_append.mp hb with hb | hb
          · exact hdom a hain b hb
          · have hbx : b = x := by simpa using hb
            rw [hbx]
            exact le_trans (not_lt.mp hmx) (hmin a hain)
        · simp [List.append_assoc]

/-- Folding pushes preserves the invariant; the kept data is sorted, has
length `min (initial + pushed) n` and dominates every discarded element. -/
theorem pushFold_invariant (n : ℕ) (xs : List (Caption σ)) :
    ∀ (d rest : List (Caption σ)), AscBy d → d.length ≤ n →
      (rest ≠ [] → d.length = n) →
      (∀ a ∈ d, ∀ b ∈ rest, b.score ≤ a.score) →
      ∃ rest2 : List (Caption σ),
        AscBy (xs.foldl (heapPush n) d) ∧
        (xs.foldl (heapPush n) d).length = min (d.length + xs.length) n ∧
        (∀ a ∈ xs.foldl (heapPush n) d, ∀ b ∈ rest2, b.score ≤ a.score) ∧
        ((xs.foldl (heapPush n) d) ++ rest2).Perm (d ++ rest ++ xs) := by
  induction xs with
  | nil =>
    intro d rest ha hlen hfull hdom
    exact ⟨rest, ha, by simp; omega, hdom, by simp⟩
  | cons x xs ih =>
    intro d rest ha hlen hfull hdom
    obtain ⟨rest1, ha1, hlen1, hfull1, hdom1, hperm1⟩ :=
      heapPush_top_invariant x ha hlen hfull hdom
    have hlen1' : (heapPush n d x).length ≤ n := by omega
    obtain ⟨rest2, ha2, hlen2, hdom2, hperm2⟩ :=
      ih (heapPush n d x) rest1 ha1 hlen1' hfull1 hdom1
    refine ⟨rest2, ha2, ?_, hdom2, ?_⟩
    · rw [List.foldl_cons] at *
      rw [hlen2, hlen1]
      simp only [List.length_cons]
      omega
    · rw [List.foldl_cons]
      refine hperm2.trans ?_
      refine (hperm1.append_right xs).trans ?_
      simp [List.append_assoc]

/-- The content of a fresh `TopN n` after pushing `xs`: sorted data of length
`min |xs| n` that is a sub-multiset of `xs` dominating the discarded rest. -/
theorem pushAll_spec (n : ℕ) (xs : List (Caption σ)) :
    ∃ rest : List (Caption σ),
      AscBy (pushAll n xs) ∧
      (pushAll n xs).length = min xs.length n ∧
      (∀ a ∈ pushAll n xs, ∀ b ∈ rest, b.score ≤ a.score) ∧
      ((pushAll n xs) ++ rest).Perm xs := by
  obtain ⟨rest, ha, hlen, hdom, hperm⟩ :=
    pushFold_invariant n xs [] [] (List.Pairwise.nil) (by simp)
      (fun h => absurd rfl h) (by simp)
  exact ⟨rest, ha, by simpa using hlen, hdom, by simpa using hperm⟩

theorem pushSeq_live (n : ℕ) (xs : List (Caption σ)) :
    ∀ d : List (Caption σ),
      (TopN.pushSeq ⟨n, some d⟩ xs) = some ⟨n, some (xs.foldl (heapPush n) d)⟩ := by
  induction xs with
  | nil => intro d; rfl
  | cons x xs ih =>
    intro d
    simpa [TopN.pushSeq, TopN.push] using ih (heapPush n d x)

end HeapLemmas

section BeamLemmas

variable {σ : Type}

theorem getLastD_append_singleton (l : List ℕ) (a d : ℕ) :
    (l ++ [a]).getLastD d = a := by
  induction l with
  | nil => rfl
  | cons x xs ih => simpa [List.getLastD] using ih

theorem expandOne_fst_cases {g : CaptionGenerator σ} {log : ℚ → ℚ}
    {powf : ℕ → ℚ → ℚ} {pc : Caption σ} {s : σ}
    {acc : List (Caption σ) × List (Caption σ)} {wp : ℕ × ℚ} {y : Caption σ}
    (h : y ∈ (expandOne g log powf pc s acc wp).1) :
    y ∈ acc.1 ∨
      (y.sentence = pc.sentence ++ [wp.1] ∧ wp.1 ≠ g.end_id ∧
       y.logprob = pc.logprob + log wp.2 ∧ y.score = y.logprob) := by
  simp only [expandOne] at h
  split at h
  · exact Or.inl h
  · split at h
    · exact Or.inl h
    · rename_i hne
      rcases mem_heapPush h with rfl | h
      · exact Or.inr ⟨rfl, hne, rfl, rfl⟩
      · exact Or.inl h

theorem expandOne_snd_cases {g : CaptionGenerator σ} {log : ℚ → ℚ}
    {powf : ℕ → ℚ → ℚ} {pc : Caption σ} {s : σ}
    {acc : List (Caption σ) × List (Caption σ)} {wp : ℕ × ℚ} {y : Caption σ}
    (h : y ∈ (expandOne g log powf pc s acc wp).2) :
    y ∈ acc.2 ∨
      (y.sentence = pc.sentence ++ [wp.1] ∧ wp.1 = g.end_id ∧
       y.logprob = pc.logprob + log wp.2) := by
  simp only [expandOne] at h
  split at h
  · exact Or.inl h
  · split at h
    · rename_i he
      rcases mem_heapPush h with rfl | h
      · exact Or.inr ⟨rfl, he, rfl⟩
      · exact Or.inl h
    · exact Or.inl h

theorem foldl_expandOne_fst_cases {g : CaptionGenerator σ} {log : ℚ → ℚ}
    {powf : ℕ → ℚ → ℚ} {pc : Caption σ} {s : σ} (L : List (ℕ × ℚ)) :
    ∀ acc, ∀ y ∈ (L.foldl (expandOne g log powf pc s) acc).1,
      y ∈ acc.1 ∨ ∃ w : ℕ, y.sentence = pc.sentence ++ [w] ∧
        w ≠ g.end_id ∧ y.score = y.logprob := by
  induction L with
  | nil => exact fun acc y hy => Or.inl hy
  | cons c L ih =>
    intro acc y hy
    rcases ih _ y hy with hy | hy
    · rcases expandOne_fst_cases hy with hy | ⟨h1, h2, _, h4⟩
      · exact Or.inl hy
      · exact Or.inr ⟨c.1, h1, h2, h4⟩
    · exact Or.inr hy

theorem foldl_expandOne_snd_cases {g : CaptionGenerator σ} {log : ℚ → ℚ}
    {powf : ℕ → ℚ → ℚ} {pc : Caption σ} {s : σ} (L : List (ℕ × ℚ)) :
    ∀ acc, ∀ y ∈ (L.foldl (expandOne g log powf pc s) acc).2,
      y ∈ acc.2 ∨ ∃ w : ℕ, y.sentence = pc.sentence ++ [w] ∧ w = g.end_id := by
  induction L with
  | nil => exact fun acc y hy => Or.inl hy
  | cons c L ih =>
    intro acc y hy
    rcases ih _ y hy with hy | hy
    · rcases expandOne_snd_cases hy with hy | ⟨h1, h2, _⟩
      · exact Or.inl hy
      · exact Or.inr ⟨c.1, h1, h2⟩
    · exact Or.inr hy

theorem expandBatch_fst_cases {g : CaptionGenerator σ} {log : ℚ → ℚ}
    {powf : ℕ → ℚ → ℚ} (batch : List (Caption σ × (List ℚ × σ))) :
    ∀ comp0 acc0, ∀ y ∈ (batch.foldl
        (fun acc b => expandCaption g log powf acc b.1 b.2.1 b.2.2)
        (acc0, comp0)).1,
      y ∈ acc0 ∨ ∃ pc, (∃ b ∈ batch, b.1 = pc) ∧ ∃ w : ℕ,
        y.sentence = pc.sentence ++ [w] ∧ w ≠ g.end_id ∧
        y.score = y.logprob := by
  induction batch with
  | nil => exact fun comp0 acc0 y hy => Or.inl hy
  | cons b batch ih =>
    intro comp0 acc0 y hy
    rw [List.foldl_cons] at hy
    have hy2 := ih (expandCaption g log powf (acc0, comp0) b.1 b.2.1 b.2.2).2
      (expandCaption g log powf (acc0, comp0) b.1 b.2.1 b.2.2).1 y
    rcases hy2 (by simpa using hy) with hy | ⟨pc, ⟨b2, hb2, hpc⟩, w, h1, h2, h3⟩
    · rcases foldl_expandOne_fst_cases _ _ y hy with hy | ⟨w, h1, h2, h3⟩
      · exact Or.inl hy
      · exact Or.inr ⟨b.1, ⟨b, List.mem_cons_self b batch, rfl⟩, w, h1, h2, h3⟩
    · exact Or.inr ⟨pc, ⟨b2, List.mem_cons_of_mem b hb2, hpc⟩, w, h1, h2, h3⟩

theorem expandBatch_snd_cases {g : CaptionGenerator σ} {log : ℚ → ℚ}
    {powf : ℕ → ℚ → ℚ} (batch : List (Caption σ × (List ℚ × σ))) :
    ∀ comp0 acc0, ∀ y ∈ (batch.foldl
        (fun acc b => expandCaption g log powf acc b.1 b.2.1 b.2.2)
        (acc0, comp0)).2,
      y ∈ comp0 ∨ ∃ pc, (∃ b ∈ batch, b.1 = pc) ∧ ∃ w : ℕ,
        y.sentence = pc.sentence ++ [w] ∧ w = g.end_id := by
  induction batch with
  | nil => exact fun comp0 acc0 y hy => Or.inl hy
  | cons b batch ih =>
    intro comp0 acc0 y hy
    rw [List.foldl_cons] at hy
    have hy2 := ih (expandCaption g log powf (acc0, comp0) b.1 b.2.1 b.2.2).2
      (expandCaption g log powf (acc0, comp0) b.1 b.2.1 b.2.2).1 y
    rcases hy2 (by simpa using hy) with hy | ⟨pc, ⟨b2, hb2, hpc⟩, w, h1, h2⟩
    · rcases foldl_expandOne_snd_cases _ _ y hy with hy | ⟨w, h1, h2⟩
      · exact Or.inl hy
      · exact Or.inr ⟨b.1, ⟨b, List.mem_cons_self b batch, rfl⟩, w, h1, h2⟩
    · exact Or.inr ⟨pc, ⟨b2, List.mem_cons_of_mem b hb2, hpc⟩, w, h1, h2⟩

theorem expandOne_lengths {g : CaptionGenerator σ} {log : ℚ → ℚ}
    {powf : ℕ → ℚ → ℚ} {pc : Caption σ} {s : σ}
    {acc : List (Caption σ) × List (Caption σ)} (wp : ℕ × ℚ)
    (h1 : acc.1.length ≤ g.beam_size) (h2 : acc.2.length ≤ g.beam_size) :
    (expandOne g log powf pc s acc wp).1.length ≤ g.beam_size ∧
    (expandOne g log powf pc s acc wp).2.length ≤ g.beam_size := by
  simp only [expandOne]
  split
  · exact ⟨h1, h2⟩
  · split
    · exact ⟨h1, length_heapPush_le _ h2⟩
    · exact ⟨length_heapPush_le _ h1, h2⟩

theorem foldl_expandOne_lengths {g : CaptionGenerator σ} {log : ℚ → ℚ}
    {powf : ℕ → ℚ → ℚ} {pc : Caption σ} {s : σ} (L : List (ℕ × ℚ)) :
    ∀ acc : List (Caption σ) × List (Caption σ),
      acc.1.length ≤ g.beam_size → acc.2.length ≤ g.beam_size →
      (L.foldl (expandOne g log powf pc s) acc).1.length ≤ g.beam_size ∧
      (L.foldl (expandOne g log powf pc s) acc).2.length ≤ g.beam_size := by
  induction L with
  | nil => exact fun acc h1 h2 => ⟨h1, h2⟩
  | cons c L ih =>
    intro acc h1 h2
    rw [List.foldl_cons]
    obtain ⟨h1', h2'⟩ := expandOne_lengths c h1 h2
    exact ih _ h1' h2'

theorem expandBatch_lengths {g : CaptionGenerator σ} {log : ℚ → ℚ}
    {powf : ℕ → ℚ → ℚ} (batch : List (Caption σ × (List ℚ × σ))) :
    ∀ acc : List (Caption σ) × List (Caption σ),
      acc.1.length ≤ g.beam_size → acc.2.length ≤ g.beam_size →
      (batch.foldl
        (fun acc b => expandCaption g log powf acc b.1 b.2.1 b.2.2)
        acc).1.length ≤ g.beam_size ∧
      (batch.foldl
        (fun acc b => expandCaption g log powf acc b.1 b.2.1 b.2.2)
        acc).2.length ≤ g.beam_size := by
  induction batch with
  | nil => exact fun acc h1 h2 => ⟨h1, h2⟩
  | cons b batch ih =>
    intro acc h1 h2
    rw [List.foldl_cons]
    obtain ⟨h1', h2'⟩ := foldl_expandOne_lengths
      ((sortDescProb (b.2.1.enum)).take g.beam_size) acc h1 h2
    exact ih _ h1' h2'

theorem beamLoop_lengths {g : CaptionGenerator σ} {log : ℚ → ℚ}
    {powf : ℕ → ℚ → ℚ} :
    ∀ (fuel : ℕ) (fr comp : List (Caption σ)),
      fr.length ≤ g.beam_size → comp.length ≤ g.beam_size →
      (beamLoop g log powf fuel fr comp).1.length ≤ g.beam_size ∧
      (beamLoop g log powf fuel fr comp).2.length ≤ g.beam_size := by
  intro fuel
  induction fuel with
  | zero => exact fun fr comp h1 h2 => ⟨h1, h2⟩
  | succ fuel ih =>
    intro fr comp h1 h2
    simp only [beamLoop]
    have hres := @expandBatch_lengths σ g log powf
      (fr.zip ((g.inference_step (fr.map (fun c => c.sentence.getLastD 0))
        (fr.map (fun c => c.state))).1.zip
        (g.inference_step (fr.map (fun c => c.sentence.getLastD 0))
        (fr.map (fun c => c.state))).2))
      ([], comp) (by simp) h2
    split
    · exact hres
    · exact ih _ _ hres.1 hres.2

theorem beamLoop_homog {g : CaptionGenerator σ} {log : ℚ → ℚ}
    {powf : ℕ → ℚ → ℚ} :
    ∀ (fuel : ℕ) (fr comp : List (Caption σ)),
      (∀ y ∈ fr, ¬ IsCompleted g y ∧ y.score = y.logprob) →
      (∀ y ∈ comp, IsCompleted g y) →
      (∀ y ∈ (beamLoop g log powf fuel fr comp).1,
        ¬ IsCompleted g y ∧ y.score = y.logprob) ∧
      (∀ y ∈ (beamLoop g log powf fuel fr comp).2, IsCompleted g y) := by
  intro fuel
  induction fuel with
  | zero => exact fun fr comp h1 h2 => ⟨h1, h2⟩
  | succ fuel ih =>
    intro fr comp h1 h2
    simp only [beamLoop]
    have hres1 : ∀ y ∈ (expandBatch g log powf
        (fr.zip ((g.inference_step (fr.map (fun c => c.sentence.getLastD 0))
          (fr.map (fun c => c.state))).1.zip
          (g.inference_step (fr.map (fun c => c.sentence.getLastD 0))
          (fr.map (fun c => c.state))).2)) comp).1,
        ¬ IsCompleted g y ∧ y.score = y.logprob := by
      intro y hy
      rcases expandBatch_fst_cases _ _ _ y hy with hy |
        ⟨pc, ⟨b, _, _⟩, w, hs, hw, hsl⟩
      · simp at hy
      · refine ⟨?_, hsl⟩
        unfold IsCompleted
        rw [hs, getLastD_append_singleton]
        exact hw
    have hres2 : ∀ y ∈ (expandBatch g log powf
        (fr.zip ((g.inference_step (fr.map (fun c => c.sentence.getLastD 0))
          (fr.map (fun c => c.state))).1.zip
          (g.inference_step (fr.map (fun c => c.sentence.getLastD 0))
          (fr.map (fun c => c.state))).2)) comp).2,
        IsCompleted g y := by
      intro y hy
      rcases expandBatch_snd_cases _ _ _ y hy with hy |
        ⟨pc, ⟨b, _, _⟩, w, hs, hw⟩
      · exact h2 y hy
      · unfold IsCompleted
        rw [hs, getLastD_append_singleton, hw]
    split
    · exact ⟨hres1, hres2⟩
    · exact ih _ _ hres1 hres2

theorem beamLoop_sentlen {g : CaptionGenerator σ} {log : ℚ → ℚ}
    {powf : ℕ → ℚ → ℚ} :
    ∀ (fuel m : ℕ) (fr comp : List (Caption σ)),
      (∀ y ∈ fr, y.sentence.length ≤ m) →
      (∀ y ∈ comp, y.sentence.length ≤ m + fuel) →
      (∀ y ∈ (beamLoop g log powf fuel fr comp).1,
        y.sentence.length ≤ m + fuel) ∧
      (∀ y ∈ (beamLoop g log powf fuel fr comp).2,
        y.sentence.length ≤ m + fuel) := by
  intro fuel
  induction fuel with
  | zero =>
    intro m fr comp h1 h2
    exact ⟨fun y hy => by simpa using h1 y hy, fun y hy => h2 y hy⟩
  | succ fuel ih =>
    intro m fr comp h1 h2
    simp only [beamLoop]
    have hres1 : ∀ y ∈ (expandBatch g log powf
        (fr.zip ((g.inference_step (fr.map (fun c => c.sentence.getLastD 0))
          (fr.map (fun c => c.state))).1.zip
          (g.inference_step (fr.map (fun c => c.sentence.getLastD 0))
          (fr.map (fun c => c.state))).2)) comp).1,
        y.sentence.length ≤ m + 1 := by
      intro y hy
      rcases expandBatch_fst_cases _ _ _ y hy with hy |
        ⟨pc, ⟨b, hb, hpc⟩, w, hs, _, _⟩
      · simp at hy
      · have hpcfr : pc ∈ fr := hpc ▸ (List.of_mem_zip hb).1
        have := h1 pc hpcfr
        rw [hs, List.length_append]
        simp only [List.length_singleton]
        omega
    have hres2 : ∀ y ∈ (expandBatch g log powf
        (fr.zip ((g.inference_step (fr.map (fun c => c.sentence.getLastD 0))
          (fr.map (fun c => c.state))).1.zip
          (g.inference_step (fr.map (fun c => c.sentence.getLastD 0))
          (fr.map (fun c => c.state))).2)) comp).2,
        y.sentence.length ≤ (m + 1) + fuel := by
      intro y hy
      rcases expandBatch_snd_cases _ _ _ y hy with hy |
        ⟨pc, ⟨b, hb, hpc⟩, w, hs, _⟩
      · have := h2 y hy
        omega
      · have hpcfr : pc ∈ fr := hpc ▸ (List.of_mem_zip hb).1
        have := h1 pc hpcfr
        rw [hs, List.length_append]
        simp only [List.length_singleton]
        omega
    split
    · refine ⟨fun y hy => ?_, fun y hy => ?_⟩
      · have := hres1 y hy
        omega
      · have := hres2 y hy
        omega
    · obtain ⟨ha, hb⟩ := ih (m + 1) _ _ hres1 hres2
      refine ⟨fun y hy => ?_, fun y hy => ?_⟩
      · have := ha y hy
        omega
      · have := hb y hy
        omega

theorem expandOne_congr {g : CaptionGenerator σ} {log1 log2 : ℚ → ℚ}
    {powf : ℕ → ℚ → ℚ} {pc : Caption σ} {s : σ}
    (h : ∀ q : ℚ, ¬ q < epsilon → log1 q = log2 q)
    (acc : List (Caption σ) × List (Caption σ)) (wp : ℕ × ℚ) :
    expandOne g log1 powf pc s acc wp = expandOne g log2 powf pc s acc wp := by
  simp only [expandOne]
  split
  · rfl
  · rename_i hq
    rw [h wp.2 hq]

theorem foldl_expandOne_congr {g : CaptionGenerator σ} {log1 log2 : ℚ → ℚ}
    {powf : ℕ → ℚ → ℚ} {pc : Caption σ} {s : σ}
    (h : ∀ q : ℚ, ¬ q < epsilon → log1 q = log2 q) (L : List (ℕ × ℚ)) :
    ∀ acc, L.foldl (expandOne g log1 powf pc s) acc =
      L.foldl (expandOne g log2 powf pc s) acc := by
  induction L with
  | nil => exact fun acc => rfl
  | cons c L ih =>
    intro acc
    rw [List.foldl_cons, List.foldl_cons, expandOne_congr h acc c, ih]

theorem expandBatch_fold_congr {g : CaptionGenerator σ} {log1 log2 : ℚ → ℚ}
    {powf : ℕ → ℚ → ℚ}
    (h : ∀ q : ℚ, ¬ q < epsilon → log1 q = log2 q)
    (batch : List (Caption σ × (List ℚ × σ))) :
    ∀ acc, batch.foldl
        (fun acc b => expandCaption g log1 powf acc b.1 b.2.1 b.2.2) acc =
      batch.foldl
        (fun acc b => expandCaption g log2 powf acc b.1 b.2.1 b.2.2) acc := by
  induction batch with
  | nil => exact fun acc => rfl
  | cons b batch ih =>
    intro acc
    rw [List.foldl_cons, List.foldl_cons]
    have he : expandCaption g log1 powf acc b.1 b.2.1 b.2.2 =
        expandCaption g log2 powf acc b.1 b.2.1 b.2.2 :=
      foldl_expandOne_congr h _ acc
    rw [he, ih]

theorem beamLoop_congr {g : CaptionGenerator σ} {log1 log2 : ℚ → ℚ}
    {powf : ℕ → ℚ → ℚ}
    (h : ∀ q : ℚ, ¬ q < epsilon → log1 q = log2 q) :
    ∀ (fuel : ℕ) (fr comp : List (Caption σ)),
      beamLoop g log1 powf fuel fr comp = beamLoop g log2 powf fuel fr comp := by
  intro fuel
  induction fuel with
  | zero => exact fun fr comp => rfl
  | succ fuel ih =>
    intro fr comp
    simp only [beamLoop, expandBatch]
    rw [expandBatch_fold_congr h]
    split
    · rfl
    · exact ih _ _

theorem beam_search_congr {g : CaptionGenerator σ} {log1 log2 : ℚ → ℚ}
    {powf : ℕ → ℚ → ℚ} (st : σ)
    (h : ∀ q : ℚ, ¬ q < epsilon → log1 q = log2 q) :
    beam_search g log1 powf st = beam_search g log2 powf st := by
  simp only [beam_search]
  rw [beamLoop_congr h]

end BeamLemmas

section ClaimHelpers

variable {σ : Type}

theorem epsilon_pos : (0 : ℚ) < epsilon := by
  norm_num [epsilon]

theorem one_not_lt_epsilon : ¬ (1 : ℚ) < epsilon := by
  norm_num [epsilon]

theorem sortDesc_length_eq (l : List (Caption σ)) :
    (sortDesc l).length = l.length :=
  (sortDesc_perm l).length_eq

theorem beamLoop_nil_frontier (g : CaptionGenerator σ) (log : ℚ → ℚ)
    (powf : ℕ → ℚ → ℚ) :
    ∀ (fuel : ℕ) (comp : List (Caption σ)),
      beamLoop g log powf fuel [] comp = ([], comp) := by
  intro fuel
  induction fuel with
  | zero => intro comp; rfl
  | succ fuel ih => intro comp; simp [beamLoop, expandBatch]

end ClaimHelpers

/-- C1: for every beam width `B ≥ 1` and every sequence of model responses, a
single `beam_search` call returns at most `B` hypotheses, and the returned
list is ordered by score descending (highest score first). -/
theorem beam_search_le_beam_and_sorted {σ : Type} (g : CaptionGenerator σ)
    (log : ℚ → ℚ) (powf : ℕ → ℚ → ℚ) (st : σ) (hB : 1 ≤ g.beam_size) :
    (beam_search g log powf st).length ≤ g.beam_size ∧
    DescBy (beam_search g log powf st) := by
  constructor
  · simp only [beam_search]
    rw [sortDesc_length_eq]
    have hfr0 : (heapPush g.beam_size ([] : List (Caption σ))
        ⟨[g.start_id], st, 0, 0⟩).length ≤ g.beam_size :=
      length_heapPush_le _ (by simp)
    obtain ⟨h1, h2⟩ :=
      beamLoop_lengths (g.max_caption_length - 1) _ [] hfr0 (by simp)
    split
    · exact h1
    · exact h2
  · simp only [beam_search]
    exact descBy_sortDesc _

/-- Witness for C1 at a concrete generator with beam width 2. -/
theorem beam_search_le_beam_and_sorted_witness :
    1 ≤ gSmall.beam_size ∧
    ((beam_search gSmall (fun q => q) (fun _ _ => 1) ()).length ≤
        gSmall.beam_size ∧
      DescBy (beam_search gSmall (fun q => q) (fun _ _ => 1) ())) :=
  ⟨by decide,
   beam_search_le_beam_and_sorted gSmall (fun q => q) (fun _ _ => 1) ()
     (by decide)⟩

/-- C2: for every capacity `N ≥ 1` and sequence of `M` pushed items (no
intervening extract), a `TopN` holds, at extraction, exactly the `N`
highest-scored of the `M` items when `M ≥ N` (every discarded item scores no
more than every retained one), and exactly all `M` items when `M < N`. -/
theorem topn_retains_top_scored {σ : Type} (N : ℕ) (hN : 1 ≤ N)
    (xs : List (Caption σ)) :
    (TopN.new σ N).pushSeq xs = some ⟨N, some (pushAll N xs)⟩ ∧
    (⟨N, some (pushAll N xs)⟩ : TopN σ).extract false =
      some (pushAll N xs, ⟨N, none⟩) ∧
    (xs.length < N → (pushAll N xs).Perm xs) ∧
    (N ≤ xs.length →
      (pushAll N xs).length = N ∧
      ∃ rest, ((pushAll N xs) ++ rest).Perm xs ∧
        ∀ a ∈ pushAll N xs, ∀ b ∈ rest, b.score ≤ a.score) := by
  obtain ⟨rest, ha, hlen, hdom, hperm⟩ := pushAll_spec N xs
  refine ⟨pushSeq_live N xs [], rfl, ?_, ?_⟩
  · intro hlt
    have hlenM : (pushAll N xs).length = xs.length := by
      rw [hlen]; omega
    have hlen2 := hperm.length_eq
    have hrest : rest = [] := by
      rw [List.length_append] at hlen2
      have : rest.length = 0 := by omega
      exact List.length_eq_zero.mp this
    subst hrest
    simpa using hperm
  · intro hge
    exact ⟨by rw [hlen]; omega, rest, hperm, hdom⟩

/-- Witness for C2 at capacity 2 and three concrete pushed captions. -/
theorem topn_retains_top_scored_witness :
    (TopN.new Unit 2).pushSeq [capA, capB, capC] =
        some ⟨2, some (pushAll 2 [capA, capB, capC])⟩ ∧
    (⟨2, some (pushAll 2 [capA, capB, capC])⟩ : TopN Unit).extract false =
      some (pushAll 2 [capA, capB, capC], ⟨2, none⟩) ∧
    (([capA, capB, capC] : List (Caption Unit)).length < 2 →
      (pushAll 2 [capA, capB, capC]).Perm [capA, capB, capC]) ∧
    (2 ≤ ([capA, capB, capC] : List (Caption Unit)).length →
      (pushAll 2 [capA, capB, capC]).length = 2 ∧
      ∃ rest, ((pushAll 2 [capA, capB, capC]) ++ rest).Perm
          [capA, capB, capC] ∧
        ∀ a ∈ pushAll 2 [capA, capB, capC], ∀ b ∈ rest,
          b.score ≤ a.score) :=
  topn_retains_top_scored 2 (by decide) [capA, capB, capC]

/-- C4: for every expansion of a parent by token `w` with probability
`p ≥ epsilon`: the child's logprob is the parent's plus `log p`; a non-end
child's score equals its logprob and it is pushed into the frontier with no
length normalization; an end child with `alpha > 0` gets score
`logprob / powf (parentLength + 1) alpha`; an end child with `alpha ≤ 0`
keeps score = logprob. -/
theorem expand_child_fields {σ : Type} (g : CaptionGenerator σ)
    (log : ℚ → ℚ) (powf : ℕ → ℚ → ℚ) (pc : Caption σ) (s : σ)
    (acc : List (Caption σ) × List (Caption σ)) (w : ℕ) (p : ℚ)
    (hp : ¬ p < epsilon) :
    (w ≠ g.end_id → expandOne g log powf pc s acc (w, p) =
      (heapPush g.beam_size acc.1
        ⟨pc.sentence ++ [w], s, pc.logprob + log p, pc.logprob + log p⟩,
       acc.2)) ∧
    (w = g.end_id → 0 < g.length_normalization_factor →
      expandOne g log powf pc s acc (w, p) =
      (acc.1, heapPush g.beam_size acc.2
        ⟨pc.sentence ++ [w], s, pc.logprob + log p,
         (pc.logprob + log p) /
           powf (pc.sentence.length + 1) g.length_normalization_factor⟩)) ∧
    (w = g.end_id → ¬ 0 < g.length_normalization_factor →
      expandOne g log powf pc s acc (w, p) =
      (acc.1, heapPush g.beam_size acc.2
        ⟨pc.sentence ++ [w], s, pc.logprob + log p,
         pc.logprob + log p⟩)) := by
  refine ⟨?_, ?_, ?_⟩
  · intro hw
    simp only [expandOne]
    rw [if_neg hp, if_neg hw]
  · intro hw ha
    simp only [expandOne]
    rw [if_neg hp, if_pos hw, if_pos ha]
    simp [List.length_append]
  · intro hw ha
    simp only [expandOne]
    rw [if_neg hp, if_pos hw, if_neg ha]

/-- Witness for C4: expanding a concrete caption by token 2 with
probability 1. -/
theorem expand_child_fields_witness :
    expandOne gSmall (fun q => q) (fun _ _ => 1) capA () ([], []) (2, 1) =
      (heapPush gSmall.beam_size []
        ⟨capA.sentence ++ [2], (), capA.logprob + 1, capA.logprob + 1⟩,
       []) :=
  (expand_child_fields gSmall (fun q => q) (fun _ _ => 1) capA () ([], [])
    2 1 one_not_lt_epsilon).1 (by decide)

/-- C5: a candidate with probability below `1e-12` is skipped outright (even
when it is among the top-`B` candidates), and `beam_search` never evaluates
`log` below the floor: two `log` functions agreeing on arguments `≥ 1e-12`
give identical results. -/
theorem prob_floor_skips (σ : Type) :
    (∀ (g : CaptionGenerator σ) (log : ℚ → ℚ) (powf : ℕ → ℚ → ℚ)
        (pc : Caption σ) (s : σ)
        (acc : List (Caption σ) × List (Caption σ)) (w : ℕ) (p : ℚ),
      p < epsilon → expandOne g log powf pc s acc (w, p) = acc) ∧
    (∀ (g : CaptionGenerator σ) (log1 log2 : ℚ → ℚ) (powf : ℕ → ℚ → ℚ)
        (st : σ), (∀ q : ℚ, ¬ q < epsilon → log1 q = log2 q) →
      beam_search g log1 powf st = beam_search g log2 powf st) := by
  constructor
  · intro g log powf pc s acc w p hp
    simp only [expandOne]
    rw [if_pos hp]
  · intro g log1 log2 powf st h
    exact beam_search_congr st h

/-- Witness for C5: probability 0 (< 1e-12) is skipped at a concrete
expansion. -/
theorem prob_floor_skips_witness :
    expandOne gSmall (fun q => q) (fun _ _ => 1) capA () ([], []) (2, 0) =
      ([], []) :=
  (prob_floor_skips Unit).1 gSmall (fun q => q) (fun _ _ => 1) capA ()
    ([], []) 2 0 epsilon_pos

/-- C10: with `maxSteps = L ≥ 1` every returned hypothesis has a token
sequence of length at most `L` (the start hypothesis has length 1, the loop
runs at most `L - 1` times, and each expansion appends one token). -/
theorem beam_search_sentence_length_le_max {σ : Type}
    (g : CaptionGenerator σ) (log : ℚ → ℚ) (powf : ℕ → ℚ → ℚ) (st : σ)
    (hL : 1 ≤ g.max_caption_length) :
    ∀ c ∈ beam_search g log powf st,
      c.sentence.length ≤ g.max_caption_length := by
  intro c hc
  simp only [beam_search] at hc
  rw [(sortDesc_perm _).mem_iff] at hc
  have hfr0 : ∀ y ∈ heapPush g.beam_size ([] : List (Caption σ))
      ⟨[g.start_id], st, 0, 0⟩, y.sentence.length ≤ 1 := by
    intro y hy
    rcases mem_heapPush hy with rfl | hy
    · simp
    · simp at hy
  obtain ⟨h1, h2⟩ :=
    beamLoop_sentlen (g.max_caption_length - 1) 1 _ [] hfr0 (by simp)
  split at hc
  · have := h1 c hc
    omega
  · have := h2 c hc
    omega

/-- Witness for C10 at a concrete generator with `maxSteps = 3`. -/
theorem beam_search_sentence_length_le_max_witness :
    1 ≤ gSmall.max_caption_length ∧
    ∀ c ∈ beam_search gSmall (fun q => q) (fun _ _ => 1) (),
      c.sentence.length ≤ gSmall.max_caption_length :=
  ⟨by decide,
   beam_search_sentence_length_le_max gSmall (fun q => q) (fun _ _ => 1) ()
     (by decide)⟩

/-- C3: a `beam_search` result set is homogeneous: when some caption
completed within the step budget (the completed set of the loop state is
nonempty) every returned caption ends in the end token; otherwise all
returned captions are partial frontier hypotheses with unnormalized scores
(`score = logprob`). -/
theorem beam_search_output_homogeneous {σ : Type} (g : CaptionGenerator σ)
    (log : ℚ → ℚ) (powf : ℕ → ℚ → ℚ) (st : σ)
    (hse : g.start_id ≠ g.end_id) :
    ((beamLoopResult g log powf st).2 ≠ [] →
      ∀ c ∈ beam_search g log powf st, IsCompleted g c) ∧
    ((beamLoopResult g log powf st).2 = [] →
      ∀ c ∈ beam_search g log powf st,
        ¬ IsCompleted g c ∧ c.score = c.logprob) := by
  have hfr0 : ∀ y ∈ heapPush g.beam_size ([] : List (Caption σ))
      ⟨[g.start_id], st, 0, 0⟩, ¬ IsCompleted g y ∧ y.score = y.logprob := by
    intro y hy
    rcases mem_heapPush hy with rfl | hy
    · refine ⟨?_, rfl⟩
      unfold IsCompleted
      rw [show ([g.start_id] : List ℕ) = [] ++ [g.start_id] from rfl,
        getLastD_append_singleton]
      exact hse
    · simp at hy
  obtain ⟨h1, h2⟩ :=
    beamLoop_homog (g.max_caption_length - 1) _ [] hfr0 (by simp)
  constructor
  · intro hne c hc
    simp only [beamLoopResult] at hne
    simp only [beam_search] at hc
    rw [(sortDesc_perm _).mem_iff] at hc
    rw [if_neg (by simpa [List.length_eq_zero] using hne)] at hc
    exact h2 c hc
  · intro heq c hc
    simp only [beamLoopResult] at heq
    simp only [beam_search] at hc
    rw [(sortDesc_perm _).mem_iff] at hc
    rw [if_pos (by simp [heq])] at hc
    exact h1 c hc

/-- Witness for C3 at a concrete generator whose start and end tokens
differ. -/
theorem beam_search_output_homogeneous_witness :
    gSmall.start_id ≠ gSmall.end_id ∧
    (((beamLoopResult gSmall (fun q => q) (fun _ _ => 1) ()).2 ≠ [] →
      ∀ c ∈ beam_search gSmall (fun q => q) (fun _ _ => 1) (),
        IsCompleted gSmall c) ∧
    ((beamLoopResult gSmall (fun q => q) (fun _ _ => 1) ()).2 = [] →
      ∀ c ∈ beam_search gSmall (fun q => q) (fun _ _ => 1) (),
        ¬ IsCompleted gSmall c ∧ c.score = c.logprob)) :=
  ⟨by decide,
   beam_search_output_homogeneous gSmall (fun q => q) (fun _ _ => 1) ()
     (by decide)⟩

/-- C6 counterexample: at full capacity a pushed item whose score merely
equals the current minimum does NOT replace it — `heappushpop` requires the
strict `heap[0] < item`, so the old item is kept and the new one discarded
(`capA` and `capB` share score 5 but differ in content). -/
theorem topn_equal_score_discarded_cex :
    (TopN.mk 1 (some [capA])).push capB = some ⟨1, some [capA]⟩ ∧
    capB ∉ [capA] ∧ capA.score = capB.score := by
  decide

/-- C6 amended: at full capacity (`size() == N`, data sorted ascending with
minimum `m` at the heap root) a pushed item replaces the minimum exactly when
its score is strictly greater; otherwise (including equality) the set is
unchanged and the item is discarded. -/
theorem topn_push_at_capacity {σ : Type} (n : ℕ) (m x : Caption σ)
    (rest : List (Caption σ)) (ha : AscBy (m :: rest))
    (hfull : (m :: rest).length = n) :
    (∀ b ∈ m :: rest, m.score ≤ b.score) ∧
    (TopN.mk n (some (m :: rest))).push x =
      some ⟨n, some (if m.score < x.score then insertAsc x rest
                     else m :: rest)⟩ := by
  have hmin : ∀ b ∈ m :: rest, m.score ≤ b.score := by
    intro b hb
    rcases List.mem_cons.mp hb with rfl | hb
    · exact le_refl _
    · exact (List.pairwise_cons.mp ha).1 b hb
  refine ⟨hmin, ?_⟩
  have hpush : heapPush n (m :: rest) x =
      if m.score < x.score then insertAsc x rest else m :: rest := by
    unfold heapPush
    rw [if_neg (by omega)]
    rfl
  simp only [TopN.push, hpush]

/-- Witness for C6's amended statement at a concrete full `TopN` of
capacity 1. -/
theorem topn_push_at_capacity_witness :
    (∀ b ∈ [capA], capA.score ≤ b.score) ∧
    (TopN.mk 1 (some [capA])).push capC =
      some ⟨1, some (if capA.score < capC.score then insertAsc capC []
                     else [capA])⟩ :=
  topn_push_at_capacity 1 capA capC [] (by decide) (by decide)

/-- C7: `push` (or `size`) on a `TopN` after `extract` without an intervening
`reset` fails (the `assert self._data is not None` / `InvalidStateError`);
after `reset` the set is empty and `push`/`size` succeed again. -/
theorem topn_push_after_extract_fails {σ : Type} (t t2 : TopN σ)
    (l : List (Caption σ)) (x : Caption σ) (b : Bool)
    (hext : t.extract b = some (l, t2)) :
    t2.push x = none ∧ t2.size = none ∧
    t2.reset = ⟨t.n, some []⟩ ∧
    (t2.reset).push x = some ⟨t.n, some (heapPush t.n [] x)⟩ ∧
    (t2.reset).size = some 0 := by
  obtain ⟨n0, dd⟩ := t
  cases dd with
  | none => simp [TopN.extract] at hext
  | some d =>
    simp only [TopN.extract, Option.some.injEq, Prod.mk.injEq] at hext
    obtain ⟨-, ht⟩ := hext
    subst ht
    exact ⟨rfl, rfl, rfl, rfl, rfl⟩

/-- Witness for C7: a freshly created `TopN 2` is extracted and then pushed
into. -/
theorem topn_push_after_extract_fails_witness :
    (⟨2, none⟩ : TopN Unit).push capA = none ∧
    (⟨2, none⟩ : TopN Unit).size = none ∧
    (⟨2, none⟩ : TopN Unit).reset = ⟨2, some []⟩ ∧
    ((⟨2, none⟩ : TopN Unit).reset).push capA =
      some ⟨2, some (heapPush 2 [] capA)⟩ ∧
    ((⟨2, none⟩ : TopN Unit).reset).size = some 0 :=
  topn_push_after_extract_fails (TopN.new Unit 2) ⟨2, none⟩ [] capA false rfl

/-- C8 counterexample: `CaptionGenerator.__init__` performs no validation and
`beam_search` raises no `ConfigurationError`: with `maxSteps = 0` (< 1) the
call still succeeds and even produces a (nonempty) result — the bare start
hypothesis via the fallback path. -/
theorem no_configuration_error_cex :
    beam_search gNoSteps (fun q => q) (fun _ _ => 1) () =
      [⟨[7], (), 0, 0⟩] ∧
    beam_search gNoSteps (fun q => q) (fun _ _ => 1) () ≠ [] := by
  decide

/-- C8 amended: the code validates nothing; `beam_search` is total on every
configuration: with `maxSteps ≤ 1` (and a positive beam) it returns exactly
the start hypothesis through the fallback path, and with `beamWidth = 0` it
returns the empty list — no error in either case. -/
theorem beam_search_degenerate_config {σ : Type} (g : CaptionGenerator σ)
    (log : ℚ → ℚ) (powf : ℕ → ℚ → ℚ) (st : σ) :
    (g.max_caption_length ≤ 1 → 1 ≤ g.beam_size →
      beam_search g log powf st = [⟨[g.start_id], st, 0, 0⟩]) ∧
    (g.beam_size = 0 → beam_search g log powf st = []) := by
  constructor
  · intro hL hB
    have hfuel : g.max_caption_length - 1 = 0 := by omega
    have hfr0 : heapPush g.beam_size []
        (⟨[g.start_id], st, 0, 0⟩ : Caption σ) =
        [⟨[g.start_id], st, 0, 0⟩] := by
      unfold heapPush
      rw [if_pos (by simpa using hB)]
      rfl
    simp only [beam_search, hfuel, hfr0]
    rfl
  · intro hB0
    have hfr0 : heapPush g.beam_size []
        (⟨[g.start_id], st, 0, 0⟩ : Caption σ) = [] := by
      unfold heapPush
      rw [hB0]
      rfl
    simp only [beam_search, hfr0]
    rw [beamLoop_nil_frontier]
    rfl

/-- Witness for C8's amended statement: the `maxSteps = 0` generator returns
the bare start hypothesis. -/
theorem beam_search_degenerate_config_witness :
    beam_search gNoSteps (fun q => q) (fun _ _ => 1) () =
      [⟨[gNoSteps.start_id], (), 0, 0⟩] :=
  (beam_search_degenerate_config gNoSteps (fun q => q) (fun _ _ => 1) ()).1
    (by decide) (by decide)

/-- C9 counterexample: with a model that never emits the end token,
`beam_search` falls back to the partial caption `[0, 2]` (start token 0,
content token 2, no end sentinel), yet `caption_image` delivers
`sentence[1:-1] = []`: the last CONTENT token 2 is stripped along with the
start sentinel, not just the sentinels. -/
theorem caption_image_strips_content_cex :
    (caption_image gFallback (fun _ => 0) (fun _ _ => 1) (fun q => q) ()).map
        Prod.fst = [[]] ∧
    (beam_search gFallback (fun _ => 0) (fun _ _ => 1) ()).map
        (fun c => c.sentence) = [[0, 2]] ∧
    (2 : ℕ) ≠ gFallback.end_id := by
  have h1 : ¬((1 : ℚ) < epsilon) := one_not_lt_epsilon
  refine ⟨?_, ?_, by decide⟩ <;>
    norm_num [caption_image, array_captions, beam_search, beamLoop,
      expandBatch, expandCaption, expandOne, sortDescProb, insertDescProb,
      sortDesc, insertDesc, heapPush, heapPushPop, insertAsc, gFallback, h1,
      List.enum, List.enumFrom]

/-- C9 amended: `caption_image` always delivers `sentence[1:-1]` (first and
last token dropped) paired with the exponentiated cumulative
log-probability; for completed captions `[start] ++ mid ++ [end]` this is
exactly the tokens between the sentinels, but for fallback partial captions
(no end sentinel) the final content token is dropped too. -/
theorem caption_image_strip_amended {σ : Type} (g : CaptionGenerator σ)
    (log : ℚ → ℚ) (powf : ℕ → ℚ → ℚ) (exp : ℚ → ℚ) (st : σ) :
    caption_image g log powf exp st =
      (beam_search g log powf st).map
        (fun c => ((c.sentence.drop 1).dropLast, exp c.logprob)) ∧
    (∀ (a b : ℕ) (mid : List ℕ),
      (((a :: (mid ++ [b])).drop 1).dropLast) = mid) := by
  refine ⟨rfl, ?_⟩
  intro a b mid
  simp

end TikaCaption
